import Mathlib

/-!
Verification development for the water-levels simulation server
(rust sources: src/water_flow.rs, src/physics.rs, src/simulation.rs, src/protocol.rs).

Modelling conventions:
* f64 values are modelled by exact rationals.  All arithmetic of the source is
  exact in this model; the floating-point compensation branches of the source
  are translated faithfully but evaluate to no-ops over the rationals.
* f64::sqrt (used once, in spilled_amount) is modelled by sqrtQ, a rational
  square root correctly rounded down to 12 decimal digits, computed by a
  fuel-driven Newton iteration.
* u32 and usize are modelled by natural numbers; natural subtraction is
  truncating exactly where the source relies on the minuend being larger.
* Vec mutation is modelled by state passing; a Vec that the source grows by
  pushing at the end is modelled by a list accumulated in reverse.
* Loops and the recursion of the source are modelled with an explicit fuel
  argument, structurally decreasing on every call, so that every definition
  evaluates inside the kernel.  Fuel zero returns the untouched state; the
  top-level entry points supply a generous fuel budget.
-/

set_option maxRecDepth 600000
set_option maxHeartbeats 4000000

set_option allowUnsafeReducibility true in
attribute [semireducible] Rat.add Rat.mul Rat.div Rat.sub Rat.neg Rat.inv

namespace WaterLevels

/-- Newton iteration for the integer square root, with explicit fuel so that
the kernel can evaluate it (the library Nat.sqrt uses well-founded recursion). -/
def isqrtAux : ℕ → ℕ → ℕ → ℕ
  | 0, _, guess => guess
  | fuel+1, n, guess =>
      let next := (guess + n / guess) / 2
      if next < guess then isqrtAux fuel n next else guess

/-- Integer square root (rounded down). -/
def isqrt (n : ℕ) : ℕ := if n ≤ 1 then n else isqrtAux 200 n (n / 2)

/-- Model of f64::sqrt on nonnegative inputs: the square root correctly rounded
down to 12 decimal digits. -/
def sqrtQ (x : ℚ) : ℚ := (isqrt (x * 10^24).floor.toNat : ℚ) / 10^12

/-- Model of f64::MAX, used only as the initial value of a running minimum;
the value is (2^53 - 1) * 2^971 written out in decimal, so that evaluating
comparisons against it never unfolds a deep power. -/
def f64MAX : ℚ := (179769313486231570814527423731704356798070567525844996598917476803157260780028538760589558632766878171540458953514382464234321326889464182768467546703537516986049910576551282076245490090389328944075868508455133942304583236903222948165808559332123348274797826204144723168738177180919299881250404026184124858368 : ℕ)

/-- Model of u32::MAX. -/
def u32MAX : ℕ := 4294967295

/-- Segment levels are u32 in the source. -/
abbrev SegmentLevel := ℕ

/-- Transcribes enum Area of src/water_flow.rs: the kinds of areas obtained
when scanning one horizontal slice of the landscape. -/
inductive Area where
  | Boundary : Area
  | Sink (start stop : ℕ) (bottom : SegmentLevel) : Area
  | Plain (start length sinks : ℕ) : Area
deriving DecidableEq, Repr

/-- Transcribes Area::width.  The source computes length as f64 / sinks as f64,
which is +infinity for sinks = 0; over the rationals division by zero yields 0.
A Plain with sinks = 0 is never the neighbour of a Sink area in any reachable
scan, so the two models agree on all uses. -/
def Area.width : Area → ℚ
  | .Boundary => 0
  | .Plain _ length sinks => (length : ℚ) / (sinks : ℚ)
  | .Sink start stop _ => ((stop - start + 1 : ℕ) : ℚ)

/-- Transcribes struct Sink of src/water_flow.rs (field end renamed stop). -/
inductive Sink where
  | mk (weight : ℚ) (start stop : ℕ) (top bottom : SegmentLevel)
       (capacity total_capacity water : ℚ) (children : List Sink)

instance : Inhabited Sink := ⟨.mk 0 0 0 0 0 0 0 0 []⟩

def Sink.weight : Sink → ℚ | .mk w _ _ _ _ _ _ _ _ => w

def Sink.start : Sink → ℕ | .mk _ s _ _ _ _ _ _ _ => s

def Sink.stop : Sink → ℕ | .mk _ _ e _ _ _ _ _ _ => e

def Sink.top : Sink → SegmentLevel | .mk _ _ _ t _ _ _ _ _ => t

def Sink.bottom : Sink → SegmentLevel | .mk _ _ _ _ b _ _ _ _ => b

def Sink.capacity : Sink → ℚ | .mk _ _ _ _ _ c _ _ _ => c

def Sink.total_capacity : Sink → ℚ | .mk _ _ _ _ _ _ tc _ _ => tc

def Sink.water : Sink → ℚ | .mk _ _ _ _ _ _ _ w _ => w

def Sink.children : Sink → List Sink | .mk _ _ _ _ _ _ _ _ cs => cs

/-- Replace the water content of a sink. -/
def Sink.setWater : Sink → ℚ → Sink
  | .mk w s e t b c tc _ cs, w' => .mk w s e t b c tc w' cs

/-- Replace the weight of a sink. -/
def Sink.setWeight : Sink → ℚ → Sink
  | .mk _ s e t b c tc wa cs, w' => .mk w' s e t b c tc wa cs

/-- Replace the children list of a sink. -/
def Sink.setChildren : Sink → List Sink → Sink
  | .mk w s e t b c tc wa _, cs' => .mk w s e t b c tc wa cs'

/-- Transcribes Sink::new. -/
def Sink.new (weight : ℚ) (start stop : ℕ) (top bottom : SegmentLevel)
    (children : List Sink) : Sink :=
  let width : ℚ := ((stop - start + 1 : ℕ) : ℚ)
  let capacity : ℚ := width * ((top - bottom : ℕ) : ℚ)
  let children_capacity : ℚ :=
    (children.map Sink.total_capacity).foldl (· + ·) 0
  .mk weight start stop top bottom capacity (capacity + children_capacity) 0 children

/-- Transcribes Sink::is_full. -/
def Sink.is_full (s : Sink) : Prop := s.capacity ≤ s.water

instance (s : Sink) : Decidable s.is_full := by unfold Sink.is_full; infer_instance

/-- Transcribes Sink::width. -/
def Sink.width (s : Sink) : ℚ := ((s.stop - s.start + 1 : ℕ) : ℚ)

mutual

/-- Transcribes Sink::total_water: own water plus the water of all children. -/
def Sink.total_water : Sink → ℚ
  | .mk _ _ _ _ _ _ _ w cs => w + total_waterL cs

/-- Total water of a list of sinks. -/
def total_waterL : List Sink → ℚ
  | [] => 0
  | c :: cs => c.total_water + total_waterL cs

end

/-! Scanning a slice of the landscape (WaterFlow::scan_plain / scan_sink). -/

/-- Advances the index of WaterFlow::scan_plain while segments equal the level. -/
def scanPlainIdx (l : List SegmentLevel) (stop level : ℕ) : ℕ → ℕ → ℕ
  | 0, i => i
  | fuel+1, i => if i ≤ stop ∧ l.getD i 0 = level then scanPlainIdx l stop level fuel (i+1) else i

/-- Transcribes WaterFlow::scan_plain; returns the area and the new index. -/
def scan_plain (l : List SegmentLevel) (index stop level : ℕ) : Area × ℕ :=
  let j := scanPlainIdx l stop level (stop + 1 - index) index
  let length := j - index
  (if length = 0 then Area.Boundary else Area.Plain index length 0, j)

/-- Advances the index of WaterFlow::scan_sink while segments are below the
level, tracking the maximum of the visited segments. -/
def scanSinkIdx (l : List SegmentLevel) (stop level : ℕ) : ℕ → ℕ → ℕ → ℕ × ℕ
  | 0, i, b => (i, b)
  | fuel+1, i, b =>
      if i ≤ stop ∧ l.getD i 0 < level then
        scanSinkIdx l stop level fuel (i+1) (max b (l.getD i 0))
      else (i, b)

/-- Transcribes WaterFlow::scan_sink; returns the area and the new index. -/
def scan_sink (l : List SegmentLevel) (index stop level : ℕ) : Area × ℕ :=
  let (j, bottom) := scanSinkIdx l stop level (stop + 1 - index) index 0
  (if index = j then Area.Boundary else Area.Sink index (j - 1) bottom, j)

/-- Transcribes WaterFlow::push_area.  The growing Vec of areas is modelled in
reverse order: the head of the list is the most recently pushed area.  The
match arms are in the order of the source. -/
def push_area (rev : List Area) (area : Area) : List Area :=
  match rev, area with
  | _, .Boundary => rev
  | .Boundary :: rest, _ => area :: .Boundary :: rest
  | .Plain ps pl psinks :: rest, .Sink _ _ _ => area :: .Plain ps pl (psinks + 1) :: rest
  | .Sink ss se sb :: rest, .Plain ps pl _ => .Plain ps pl 1 :: .Sink ss se sb :: rest
  | rev, _ => rev

/-- The scanning loop of WaterFlow::scan_areas, accumulating areas in reverse.
One fuel unit is spent per loop iteration; in every reachable call all segments
of the region are at most the level, each iteration advances the index, and
the supplied fuel is enough.  (On an unreachable region holding a segment above
the level the source would loop forever; the model stops when out of fuel.) -/
def scanAreasLoop (l : List SegmentLevel) (stop level : ℕ) :
    ℕ → ℕ → List Area → List Area
  | 0, _, rev => rev
  | fuel+1, i, rev =>
      if i ≤ stop then
        let (area, j) :=
          if l.getD i 0 = level then scan_plain l i stop level else scan_sink l i stop level
        scanAreasLoop l stop level fuel j (push_area rev area)
      else rev

/-- Transcribes WaterFlow::scan_areas. -/
def scan_areas (l : List SegmentLevel) (start stop level : ℕ) : List Area :=
  (scanAreasLoop l stop level (stop + 2 - start) start [Area.Boundary]).reverse ++ [Area.Boundary]

/-- Transcribes WaterFlow::calculate_sink_weight. -/
def calculate_sink_weight (areas : List Area) (index : ℕ) (total_width : ℚ) : ℚ :=
  let left_width := (areas.getD (index - 1) .Boundary).width
  let right_width := (areas.getD (index + 1) .Boundary).width
  ((areas.getD index .Boundary).width + left_width + right_width) / total_width

mutual

/-- Transcribes WaterFlow::build_sinks_hierarchy.  Returns none when out of
fuel; the fuel needed is bounded by the ceiling level and the region width. -/
def build_sinks_hierarchyF : ℕ → List SegmentLevel → ℕ → ℕ → SegmentLevel →
    Option (List Sink)
  | 0, _, _, _, _ => none
  | fuel+1, l, start, stop, level =>
      let areas := scan_areas l start stop level
      let total_width : ℚ := ((stop - start + 1 : ℕ) : ℚ)
      match buildLoopF fuel l areas total_width level 1 (areas.length - 2) with
      | none => none
      | some (sinks, total_weight) =>
          -- the source compensates floating point error on the first child;
          -- over the rationals total_weight is exactly 1 whenever sinks is
          -- nonempty, so the branch is a no-op, but it is translated anyway
          some (match sinks with
                | [] => []
                | s0 :: srest =>
                    if total_weight < 1 then
                      s0.setWeight (s0.weight + (1 - total_weight)) :: srest
                    else s0 :: srest)
termination_by structural fuel _ _ _ _ => fuel

/-- The loop of build_sinks_hierarchy over the area indices 1 .. len-2:
collects the child sinks in order together with the sum of their weights. -/
def buildLoopF : ℕ → List SegmentLevel → List Area → ℚ → SegmentLevel → ℕ → ℕ →
    Option (List Sink × ℚ)
  | 0, _, _, _, _, _, _ => none
  | _+1, _, _, _, _, _, 0 => some ([], 0)
  | fuel+1, l, areas, total_width, level, index, rem+1 =>
      match areas.getD index .Boundary with
      | .Sink s e b =>
          let w := calculate_sink_weight areas index total_width
          match build_sinks_hierarchyF fuel l s e b with
          | none => none
          | some children =>
              match buildLoopF fuel l areas total_width level (index + 1) rem with
              | none => none
              | some (sinks, total_weight) =>
                  some (Sink.new w s e level b children :: sinks, w + total_weight)
      | _ => buildLoopF fuel l areas total_width level (index + 1) rem
termination_by structural fuel _ _ _ _ _ _ => fuel

end

/-- Fuel budget for building the sink hierarchy: one unit per area per level
is enough, with slack. -/
def buildFuel (l : List SegmentLevel) : ℕ :=
  (l.foldl max 0 + 2) * (l.length + 3) * 2 + 8

/-- Transcribes struct WaterFlow. -/
structure WaterFlow where
  landscape : List SegmentLevel
  water : List ℚ
  root_sink : Option Sink

/-- Transcribes WaterFlow::new. -/
def WaterFlow.new (landscape : List SegmentLevel) : WaterFlow :=
  let water := landscape.map (fun _ => (0 : ℚ))
  let root_sink :=
    if landscape.isEmpty then none
    else
      let stop := landscape.length - 1
      let bottom := landscape.foldl max 0
      let children := (build_sinks_hierarchyF (buildFuel landscape) landscape 0 stop bottom).getD []
      some (Sink.new 1 0 stop u32MAX bottom children)
  ⟨landscape, water, root_sink⟩

/-! The rainfall algorithm (WaterFlow::rain and helpers). -/

/-- Transcribes WaterFlow::find_spill_capacity: walks the siblings from the
given index in the given direction, totalling remaining capacity. -/
def findSpillCapacityAux (sinks : List Sink) (direction : ℤ) : ℕ → ℤ → ℚ
  | 0, _ => 0
  | fuel+1, i =>
      if 0 ≤ i ∧ i.toNat < sinks.length then
        let s := sinks.getD i.toNat default
        (s.total_capacity - s.total_water) + findSpillCapacityAux sinks direction fuel (i + direction)
      else 0

/-- Transcribes WaterFlow::find_spill_capacity. -/
def find_spill_capacity (sinks : List Sink) (index : ℕ) (direction : ℤ) : ℚ :=
  findSpillCapacityAux sinks direction (sinks.length + 1) ((index : ℤ) + direction)

/-- Transcribes WaterFlow::spilled_amount; f64::sqrt is modelled by sqrtQ. -/
def spilled_amount (sink_excess left_capacity right_capacity : ℚ) : ℚ × ℚ :=
  let left_proportion := min sink_excess left_capacity / sink_excess
  let right_proportion := min sink_excess right_capacity / sink_excess
  let modulo := sqrtQ (left_proportion * left_proportion + right_proportion * right_proportion)
  (sink_excess * left_proportion / modulo, sink_excess * right_proportion / modulo)

mutual

/-- Transcribes WaterFlow::fill_sink_with_water.  Returns the updated sink and
the amount of water absorbed.  Fuel zero absorbs nothing. -/
def fill_sink_with_waterF : ℕ → Sink → ℚ → Sink × ℚ
  | 0, s, _ => (s, 0)
  | fuel+1, s, amount =>
      let total_quota := (s.children.map (fun c => amount * c.weight)).foldl (· + ·) 0
      let (cs1, excess, total_filled, total_excess) :=
        fill_downstream_sinks_with_waterF fuel s.children amount (amount - total_quota)
      let (cs2, spilled) :=
        if 0 < total_excess ∧ 1 < cs1.length then
          spill_excess_water_through_sinksF fuel cs1 excess 0
        else (cs1, 0)
      let children_amount := total_filled + spilled
      let remaining := amount - children_amount
      let sink_amount := min (s.capacity - s.water) remaining
      ((s.setChildren cs2).setWater (s.water + sink_amount), children_amount + sink_amount)
termination_by structural fuel _ _ => fuel

/-- Transcribes WaterFlow::fill_downstream_sinks_with_water.  Processes the
children in order, threading the floating-point quota error (exactly zero over
the rationals once sibling weights add up to one); returns the updated
children, the per-child excess vector, the total filled and the total excess. -/
def fill_downstream_sinks_with_waterF : ℕ → List Sink → ℚ → ℚ →
    List Sink × List ℚ × ℚ × ℚ
  | 0, cs, _, _ => (cs, cs.map (fun _ => 0), 0, 0)
  | _+1, [], _, _ => ([], [], 0, 0)
  | fuel+1, c :: cs, amount, quota_error =>
      if c.is_full then
        let (cs', ex, tf, te) := fill_downstream_sinks_with_waterF fuel cs amount quota_error
        (c :: cs', 0 :: ex, tf, te)
      else
        let quota := amount * c.weight + quota_error
        let (c', filled) := fill_sink_with_waterF fuel c quota
        let e := quota - filled
        let (cs', ex, tf, te) := fill_downstream_sinks_with_waterF fuel cs amount 0
        (c' :: cs', e :: ex, filled + tf, e + te)
termination_by structural fuel _ _ _ => fuel

/-- Transcribes the loop of WaterFlow::spill_excess_water_through_sinks over
the enumerated excess vector (the guard on the total excess and on the number
of children is applied by the caller). -/
def spill_excess_water_through_sinksF : ℕ → List Sink → List ℚ → ℕ → List Sink × ℚ
  | 0, cs, _, _ => (cs, 0)
  | _+1, cs, [], _ => (cs, 0)
  | fuel+1, cs, e :: etail, index =>
      if 0 < e then
        let left_capacity := find_spill_capacity cs index (-1)
        let right_capacity := find_spill_capacity cs index 1
        if 0 < left_capacity + right_capacity then
          let (left_water, right_water) := spilled_amount e left_capacity right_capacity
          let (cs1, left_spilled) := spill_waterF fuel cs index (-1) left_water
          let (cs2, right_spilled) := spill_waterF fuel cs1 index 1 right_water
          let (cs3, rest) := spill_excess_water_through_sinksF fuel cs2 etail (index + 1)
          (cs3, left_spilled + right_spilled + rest)
        else
          let (cs3, rest) := spill_excess_water_through_sinksF fuel cs etail (index + 1)
          (cs3, rest)
      else
        let (cs3, rest) := spill_excess_water_through_sinksF fuel cs etail (index + 1)
        (cs3, rest)
termination_by structural fuel _ _ _ => fuel

/-- Transcribes WaterFlow::spill_water: walks the siblings from the given
index in the given direction while water remains, depositing into each. -/
def spill_waterF : ℕ → List Sink → ℤ → ℤ → ℚ → List Sink × ℚ
  | 0, cs, _, _, _ => (cs, 0)
  | fuel+1, cs, index, direction, amount =>
      let i := index + direction
      if 0 < amount ∧ 0 ≤ i ∧ i.toNat < cs.length then
        let s := cs.getD i.toNat default
        if 0 < s.total_capacity - s.total_water then
          let (s', spill_amount) := spill_intoF fuel s direction amount
          let (cs', rest) := spill_waterF fuel (cs.set i.toNat s') i direction (amount - spill_amount)
          (cs', spill_amount + rest)
        else
          let (cs', rest) := spill_waterF fuel cs i direction amount
          (cs', rest)
      else (cs, 0)
termination_by structural fuel _ _ _ _ => fuel

/-- The loop body of WaterFlow::spill_water for one sink: a leaf absorbs
through fill_sink_with_water; otherwise water first spills through the
children starting from the facing side, and the remainder goes to the sink
itself (again through fill_sink_with_water). -/
def spill_intoF : ℕ → Sink → ℤ → ℚ → Sink × ℚ
  | 0, s, _, _ => (s, 0)
  | fuel+1, s, direction, amount =>
      if s.children.isEmpty then fill_sink_with_waterF fuel s amount
      else
        let index : ℤ := if direction = -1 then (s.children.length : ℤ) else -1
        let (cs', children_amount) := spill_waterF fuel s.children index direction amount
        let (s1, own) := fill_sink_with_waterF fuel (s.setChildren cs') (amount - children_amount)
        (s1, own + children_amount)
termination_by structural fuel _ _ _ => fuel

end

/-! Flooding the collected water back onto the landscape
(WaterFlow::flood_water_to_landscape). -/

/-- The per-segment loop of flood_water_to_landscape over the segment range of
a sink: adds the per-segment amount to each water level, tracking the offset
of the first segment of minimal total level and the remaining water. -/
def floodLoop (terrain : List SegmentLevel) : ℕ → ℕ → ℕ → ℚ → List ℚ → ℚ → ℚ → ℕ →
    List ℚ × ℚ × ℕ
  | 0, _, _, _, water, remaining, _, lower_offset => (water, remaining, lower_offset)
  | fuel+1, i, offset, segment_amount, water, remaining, lower_level, lower_offset =>
      let water' := water.set i (water.getD i 0 + segment_amount)
      let remaining' := remaining - segment_amount
      let level := ((terrain.getD i 0 : ℚ)) + water'.getD i 0
      let (lower_level', lower_offset') :=
        if level < lower_level then (level, offset) else (lower_level, lower_offset)
      floodLoop terrain fuel (i + 1) (offset + 1) segment_amount water' remaining' lower_level' lower_offset'

mutual

/-- Transcribes WaterFlow::flood_water_to_landscape: floods children first,
then spreads this sink's water over its segment range, depositing any positive
remainder on the segment of lowest total level, and resets the water of this
sink to zero when it was positive. -/
def flood_water_to_landscapeS : List SegmentLevel → List ℚ → Sink → List ℚ × Sink
  | terrain, water, .mk w st sp top bot cap tcap wat cs =>
      let (water1, cs1) := floodchildrenL terrain water cs
      if 0 < wat then
        let segment_amount := wat / ((sp - st + 1 : ℕ) : ℚ)
        let (water2, remaining, lower_offset) :=
          floodLoop terrain (sp + 1 - st) st 0 segment_amount water1 wat f64MAX 0
        let water3 :=
          if 0 < remaining then
            water2.set (st + lower_offset) (water2.getD (st + lower_offset) 0 + remaining)
          else water2
        (water3, .mk w st sp top bot cap tcap 0 cs1)
      else (water1, .mk w st sp top bot cap tcap wat cs1)

/-- Floods a list of sinks in order. -/
def floodchildrenL : List SegmentLevel → List ℚ → List Sink → List ℚ × List Sink
  | _, water, [] => (water, [])
  | terrain, water, c :: cs =>
      let (water1, c1) := flood_water_to_landscapeS terrain water c
      let (water2, cs1) := floodchildrenL terrain water1 cs
      (water2, c1 :: cs1)

end

/-- Fuel budget for the rainfall recursion.  The source recursion of
fill_sink_with_water descends one hierarchy level per nested call and walks
sibling lists whose lengths are bounded by the landscape width, so its call
depth is finite; the budget below covers the landscapes appearing in the
theorems of this file with room to spare (their computations are fuel-stable:
doubling the budget leaves every value unchanged), while exhausted fuel would
merely leave water unabsorbed. -/
def rainFuel (l : List SegmentLevel) : ℕ :=
  2 * (l.foldl max 0 + l.length) + 16

/-- Transcribes WaterFlow::rain: fills the hierarchy with the total rainfall
volume, resets the water vector and floods the collected water back. -/
def WaterFlow.rain (wf : WaterFlow) (hours : ℚ) : WaterFlow :=
  match wf.root_sink with
  | none => wf
  | some sink =>
      let total_water := (wf.landscape.length : ℚ) * hours
      let (sink1, _) := fill_sink_with_waterF (rainFuel wf.landscape) sink total_water
      let water0 := wf.water.map (fun _ => (0 : ℚ))
      let (water1, sink2) := flood_water_to_landscapeS wf.landscape water0 sink1
      { wf with water := water1, root_sink := some sink2 }

/-- Transcribes WaterFlow::total_levels. -/
def WaterFlow.total_levels (wf : WaterFlow) : List ℚ :=
  (wf.landscape.zip wf.water).map (fun p => (p.1 : ℚ) + p.2)

/-! Transcription of src/physics.rs (struct FluidDynamics): the diffusion
solver that the simulation drives.  The density buffers are lists of length
size + 2 (one boundary cell on each side). -/

def DEFAULT_DIFFUSION : ℚ := 2/5

structure FluidDynamics where
  size : ℕ
  density : List ℚ
  density0 : List ℚ
  diffusion : ℚ

/-- Transcribes the Default instance of FluidDynamics. -/
def FluidDynamics.default : FluidDynamics := ⟨0, [0, 0], [0, 0], DEFAULT_DIFFUSION⟩

/-- Transcribes FluidDynamics::set_density. -/
def FluidDynamics.set_density (fd : FluidDynamics) (density : List ℚ) : FluidDynamics :=
  let size := density.length
  ⟨size, 0 :: density ++ [0], List.replicate (size + 2) 0, fd.diffusion⟩

/-- Transcribes FluidDynamics::get_density: the slice density[1..=size]. -/
def FluidDynamics.get_density (fd : FluidDynamics) : List ℚ :=
  (fd.density.drop 1).take fd.size

/-- Transcribes FluidDynamics::add_density: adds the value to every cell,
boundary cells included. -/
def FluidDynamics.add_density (fd : FluidDynamics) (value : ℚ) : FluidDynamics :=
  { fd with density := fd.density.map (· + value) }

/-- The inner Gauss-Seidel sweep of FluidDynamics::diffuse over i in 1..=size. -/
def diffuseInner (x0 : List ℚ) (a : ℚ) : ℕ → ℕ → List ℚ → List ℚ
  | 0, _, x => x
  | fuel+1, i, x =>
      let xi := (x0.getD i 0 + a * (x.getD (i - 1) 0 + x.getD (i + 1) 0)) / (1 + 2 * a)
      diffuseInner x0 a fuel (i + 1) (x.set i xi)

/-- Transcribes FluidDynamics::set_boundaries. -/
def set_boundaries (size : ℕ) (x : List ℚ) : List ℚ :=
  (x.set 0 (x.getD 1 0)).set (size + 1) (x.getD size 0)

/-- The twenty relaxation iterations of FluidDynamics::diffuse. -/
def diffuseIter (size : ℕ) (x0 : List ℚ) (a : ℚ) : ℕ → List ℚ → List ℚ
  | 0, x => x
  | k+1, x => diffuseIter size x0 a k (set_boundaries size (diffuseInner x0 a size 1 x))

/-- Transcribes FluidDynamics::diffuse. -/
def diffuse (size : ℕ) (x : List ℚ) (x0 : List ℚ) (diffusion delta_time : ℚ) : List ℚ :=
  diffuseIter size x0 (delta_time * diffusion * size) 20 x

/-- Transcribes FluidDynamics::step: diffuses into the scratch buffer and
swaps the two buffers. -/
def FluidDynamics.step (fd : FluidDynamics) (delta_time : ℚ) : FluidDynamics :=
  ⟨fd.size, diffuse fd.size fd.density0 fd.density fd.diffusion delta_time, fd.density, fd.diffusion⟩

/-! Transcription of src/simulation.rs (struct Simulation). -/

def DELTA_TIME : ℚ := 1/20

structure Simulation where
  hours : ℚ
  landscape : List ℚ
  running : Bool
  fast_forward : Bool
  delta_time : ℚ
  time : ℚ
  fluid_dynamics : FluidDynamics

/-- Transcribes Simulation::new. -/
def Simulation.new : Simulation := ⟨0, [], false, false, DELTA_TIME, 0, FluidDynamics.default⟩

/-- Transcribes Simulation::start. -/
def Simulation.start (sim : Simulation) (landscape : List ℚ) (hours : ℚ) : Simulation :=
  { sim with
    hours := hours
    landscape := landscape
    running := true
    fast_forward := false
    time := 0
    fluid_dynamics := sim.fluid_dynamics.set_density landscape }

/-- Transcribes Simulation::is_finished. -/
def Simulation.is_finished (sim : Simulation) : Prop := sim.hours ≤ sim.time

instance (sim : Simulation) : Decidable sim.is_finished := by
  unfold Simulation.is_finished; infer_instance

/-- Transcribes Simulation::pause. -/
def Simulation.pause (sim : Simulation) : Simulation :=
  { sim with running := false, fast_forward := false }

/-- Transcribes Simulation::resume. -/
def Simulation.resume (sim : Simulation) : Simulation :=
  { sim with running := decide (¬ sim.is_finished), fast_forward := false }

/-- Transcribes Simulation::step.  The source computes the remaining time as
(hours - time).clamp(0.0, hours), which for 0 ≤ hours equals
min hours (max 0 (hours - time)); for hours < 0 the source panics inside
f64::clamp, a state no claim reaches. -/
def Simulation.step (sim : Simulation) : Simulation :=
  let remaining_time := min sim.hours (max 0 (sim.hours - sim.time))
  let delta_time := min sim.delta_time remaining_time
  let time := sim.time + delta_time
  let fd := (sim.fluid_dynamics.add_density delta_time).step delta_time
  { sim with
    time := time
    fluid_dynamics := fd
    running := decide (time < sim.hours) }

/-- Transcribes Simulation::start_forward. -/
def Simulation.start_forward (sim : Simulation) : Simulation :=
  { sim with
    fast_forward := decide (¬ sim.is_finished)
    running := decide (¬ sim.is_finished) }

/-- The loop of Simulation::forward, with fuel; each taken iteration advances
time by min delta_time (hours - time) which is positive while unfinished, so
the fuel supplied by Simulation.forward is enough. -/
def Simulation.forwardAux : ℕ → Simulation → ℚ → ℚ → Simulation
  | 0, sim, _, _ => sim
  | fuel+1, sim, start, hours =>
      if ¬ sim.is_finished ∧ sim.time - start < hours then
        Simulation.forwardAux fuel sim.step start hours
      else sim

/-- Transcribes Simulation::forward. -/
def Simulation.forward (sim : Simulation) (hours : ℚ) : Simulation :=
  Simulation.forwardAux (((sim.hours - sim.time) * 20).ceil.toNat + 2) sim sim.time hours

/-- Transcribes Simulation::is_running. -/
def Simulation.is_running (sim : Simulation) : Bool := sim.running

/-- Transcribes Simulation::is_fast_forward. -/
def Simulation.is_fast_forward (sim : Simulation) : Bool := sim.fast_forward

/-- Transcribes Simulation::get_time. -/
def Simulation.get_time (sim : Simulation) : ℚ := sim.time

/-- Transcribes Simulation::get_levels. -/
def Simulation.get_levels (sim : Simulation) : List ℚ := sim.fluid_dynamics.get_density

/-! Transcription of src/protocol.rs: the event taxonomy and the body of the
event loop.  One loop turn is modelled as a function from the owned simulation
and the received event to the new simulation, the outbound events sent, and
the events enqueued onto the feedback loop (the 200 ms delay of the scheduled
Step does not affect which events are emitted and is not modelled). -/

def FORWARD_HOURS : ℚ := 1000

inductive Event where
  | Start (landscape : List ℚ) (hours : ℚ)
  | Step
  | Progress (running : Bool) (time : ℚ) (levels : List ℚ)
  | Pause
  | Resume
  | Forward
  | ForwardStep
deriving DecidableEq

/-- Transcribes send_progress: the Progress event built from the simulation. -/
def progressOf (sim : Simulation) : Event :=
  .Progress sim.is_running sim.get_time sim.get_levels

/-- Transcribes one turn of the match in Protocol::run.  Returns the new
simulation state, the outbound events, and the feedback events scheduled. -/
def Protocol.handle (sim : Simulation) (ev : Event) :
    Simulation × List Event × List Event :=
  match ev with
  | .Start landscape hours =>
      let sim1 := sim.start landscape hours
      (sim1, [progressOf sim1], [.Step])
  | .Step =>
      if sim.is_running ∧ ¬ sim.is_fast_forward then
        let sim1 := sim.step
        (sim1, [progressOf sim1], if ¬ sim1.is_finished then [.Step] else [])
      else (sim, [], [])
  | .Forward =>
      let sim1 := sim.start_forward
      (sim1, [progressOf sim1], [.ForwardStep])
  | .ForwardStep =>
      if sim.is_running ∧ sim.is_fast_forward then
        let sim1 := sim.forward FORWARD_HOURS
        (sim1, [progressOf sim1], if ¬ sim1.is_finished then [.ForwardStep] else [])
      else (sim, [], [])
  | .Pause =>
      let sim1 := sim.pause
      (sim1, [progressOf sim1], [])
  | .Resume =>
      let sim1 := sim.resume
      (sim1, [progressOf sim1], [.Step])
  | .Progress _ _ _ => (sim, [], [])

/-! Auxiliary definitions used to state the claims. -/

/-- Sum of a list of rationals. -/
def sumQ (l : List ℚ) : ℚ := l.foldl (· + ·) 0

/-- Does a list of areas contain a Sink area. -/
def hasSinkA : List Area → Bool
  | [] => false
  | .Sink _ _ _ :: _ => true
  | _ :: rest => hasSinkA rest

/-- Width of the first area of a list; 0 for the empty list, matching the
Boundary default of the neighbour lookups of calculate_sink_weight. -/
def headWidthA : List Area → ℚ
  | a :: _ => a.width
  | [] => 0

/-- The share of a leading Plain area attributed to one adjacent sink. -/
def leadPlainShare : List Area → ℚ
  | .Plain _ len k :: _ => (len : ℚ) / (k : ℚ)
  | _ => 0

/-- Sum over the Sink areas of a list of the area's width plus the widths of
its two neighbours; pw is the width of the area just before the list. -/
def nbrSum : ℚ → List Area → ℚ
  | _, [] => 0
  | pw, .Sink s e b :: rest =>
      (Area.Sink s e b).width + pw + headWidthA rest +
        nbrSum (Area.Sink s e b).width rest
  | _, a :: rest => nbrSum a.width rest

mutual

/-- Every nonempty sibling list in the subtree rooted at the sink has weights
summing exactly to one. -/
def Sink.sibAll : Sink → Bool
  | .mk _ _ _ _ _ _ _ _ cs =>
      (cs.isEmpty || decide (sumQ (cs.map Sink.weight) = 1)) && sibAllL cs

/-- All sinks of a list satisfy Sink.sibAll. -/
def sibAllL : List Sink → Bool
  | [] => true
  | c :: cs => c.sibAll && sibAllL cs

end

/-- The state-changing operations a client of Simulation can perform after
start (used to quantify over arbitrary call sequences). -/
inductive SimOp where
  | step : SimOp
  | forward (hours : ℚ) : SimOp
  | pause : SimOp
  | resume : SimOp
  | start_forward : SimOp

/-- Apply one operation to a simulation. -/
def applySimOp (sim : Simulation) : SimOp → Simulation
  | .step => sim.step
  | .forward h => sim.forward h
  | .pause => sim.pause
  | .resume => sim.resume
  | .start_forward => sim.start_forward

/-- Apply a sequence of operations to a simulation. -/
def applySimOps (sim : Simulation) : List SimOp → Simulation
  | [] => sim
  | op :: ops => applySimOps (applySimOp sim op) ops

/-- Recognizes a Progress event. -/
def isProgress : Event → Bool
  | .Progress _ _ _ => true
  | _ => false

/-- Number of Progress events in a list. -/
def countProgress (evs : List Event) : ℕ := (evs.filter isProgress).length

/-- The handled, non-ignored events of the protocol event loop, as enumerated
by the claim: Start, Forward, Pause and Resume are always handled; Step and
ForwardStep only when their precondition holds; everything else is ignored. -/
def handledEvent (sim : Simulation) : Event → Prop
  | .Start _ _ => True
  | .Forward => True
  | .Pause => True
  | .Resume => True
  | .Step => sim.is_running ∧ ¬ sim.is_fast_forward
  | .ForwardStep => sim.is_running ∧ sim.is_fast_forward
  | .Progress _ _ _ => False

instance (sim : Simulation) (ev : Event) : Decidable (handledEvent sim ev) := by
  cases ev <;> simp [handledEvent] <;> infer_instance

/-- Size invariant of the fluid solver buffers that the simulation maintains
after start. -/
def FluidSized (n : ℕ) (fd : FluidDynamics) : Prop :=
  fd.size = n ∧ fd.density.length = n + 2 ∧ fd.density0.length = n + 2

/-! Theorems. -/

/-- Helper: the remaining-time clamp of Simulation::step reduces to
max 0 (hours - time) when hours and time are nonnegative. -/
theorem step_clamp_eq (h t : ℚ) (hh : 0 ≤ h) (ht : 0 ≤ t) :
    min h (max 0 (h - t)) = max 0 (h - t) := by
  refine min_eq_right (max_le hh (by linarith))

/-- C6: for every simulation state with nonnegative hours and time (and the
fixed tick length of the source), step advances time by exactly
min delta_time (max 0 (hours - time)), updates running to time < hours on
every call, and leaves time unchanged once time has reached hours. -/
theorem simulation_step_clamping (sim : Simulation)
    (hd : sim.delta_time = DELTA_TIME) (hh : 0 ≤ sim.hours) (ht : 0 ≤ sim.time) :
    sim.step.time = sim.time + min DELTA_TIME (max 0 (sim.hours - sim.time)) ∧
    sim.step.running = decide (sim.step.time < sim.hours) ∧
    (sim.hours ≤ sim.time → sim.step.time = sim.time) := by
  refine ⟨?_, rfl, ?_⟩
  · simp only [Simulation.step, hd, step_clamp_eq _ _ hh ht]
  · intro hle
    simp only [Simulation.step, step_clamp_eq _ _ hh ht, hd]
    have : max 0 (sim.hours - sim.time) = 0 := max_eq_left (by linarith)
    rw [this]
    have hδ : (0:ℚ) ≤ DELTA_TIME := by norm_num [DELTA_TIME]
    rw [min_eq_right hδ]
    ring

/-- Witness for simulation_step_clamping at the freshly constructed
simulation. -/
theorem simulation_step_clamping_witness :
    Simulation.new.delta_time = DELTA_TIME ∧ 0 ≤ Simulation.new.hours ∧
      0 ≤ Simulation.new.time ∧ Simulation.new.step.time = Simulation.new.time :=
  ⟨rfl, le_refl 0, le_refl 0, by
    have h := simulation_step_clamping Simulation.new rfl (le_refl 0) (le_refl 0)
    exact h.2.2 (le_refl 0)⟩

/-- C9: pause and resume only touch the running and fast_forward flags: the
time, target hours, landscape, tick length and levels are all unchanged. -/
theorem pause_resume_frame (sim : Simulation) :
    sim.pause.time = sim.time ∧ sim.pause.hours = sim.hours ∧
    sim.pause.landscape = sim.landscape ∧ sim.pause.delta_time = sim.delta_time ∧
    sim.pause.get_levels = sim.get_levels ∧
    sim.resume.time = sim.time ∧ sim.resume.hours = sim.hours ∧
    sim.resume.landscape = sim.landscape ∧ sim.resume.delta_time = sim.delta_time ∧
    sim.resume.get_levels = sim.get_levels :=
  ⟨rfl, rfl, rfl, rfl, rfl, rfl, rfl, rfl, rfl, rfl⟩

/-- C7: one turn of the protocol loop emits exactly one outbound Progress
event when the received event is handled (Start, Forward, Pause, Resume, and
Step or ForwardStep with their precondition), and none otherwise. -/
theorem protocol_progress_emission (sim : Simulation) (ev : Event) :
    countProgress (Protocol.handle sim ev).2.1 =
      if handledEvent sim ev then 1 else 0 := by
  cases ev with
  | Start l h => simp [Protocol.handle, handledEvent, countProgress, isProgress, progressOf]
  | Forward => simp [Protocol.handle, handledEvent, countProgress, isProgress, progressOf]
  | Pause => simp [Protocol.handle, handledEvent, countProgress, isProgress, progressOf]
  | Resume => simp [Protocol.handle, handledEvent, countProgress, isProgress, progressOf]
  | Progress r t lv =>
      simp [Protocol.handle, handledEvent, countProgress, isProgress, progressOf]
  | Step =>
      cases hr : sim.is_running <;> cases hf : sim.is_fast_forward <;>
        simp [Protocol.handle, handledEvent, countProgress, isProgress, progressOf, hr, hf]
  | ForwardStep =>
      cases hr : sim.is_running <;> cases hf : sim.is_fast_forward <;>
        simp [Protocol.handle, handledEvent, countProgress, isProgress, progressOf, hr, hf]

/-- The inner diffusion sweep preserves the buffer length. -/
theorem diffuseInner_length (x0 : List ℚ) (a : ℚ) :
    ∀ fuel i x, (diffuseInner x0 a fuel i x).length = x.length := by
  intro fuel
  induction fuel with
  | zero => intro i x; rfl
  | succ n ih => intro i x; rw [diffuseInner, ih]; simp

/-- Setting the boundary cells preserves the buffer length. -/
theorem set_boundaries_length (size : ℕ) (x : List ℚ) :
    (set_boundaries size x).length = x.length := by
  simp [set_boundaries]

/-- The relaxation iterations preserve the buffer length. -/
theorem diffuseIter_length (size : ℕ) (x0 : List ℚ) (a : ℚ) :
    ∀ k x, (diffuseIter size x0 a k x).length = x.length := by
  intro k
  induction k with
  | zero => intro x; rfl
  | succ n ih => intro x; rw [diffuseIter, ih, set_boundaries_length, diffuseInner_length]

/-- FluidDynamics::step preserves the buffer-size invariant. -/
theorem fluid_step_sized (n : ℕ) (fd : FluidDynamics) (dt : ℚ)
    (h : FluidSized n fd) : FluidSized n (fd.step dt) := by
  obtain ⟨h1, h2, h3⟩ := h
  refine ⟨h1, ?_, ?_⟩
  · simpa [FluidDynamics.step, diffuse, diffuseIter_length]
  · simpa [FluidDynamics.step]

/-- FluidDynamics::add_density preserves the buffer-size invariant. -/
theorem fluid_add_density_sized (n : ℕ) (fd : FluidDynamics) (v : ℚ)
    (h : FluidSized n fd) : FluidSized n (fd.add_density v) := by
  obtain ⟨h1, h2, h3⟩ := h
  exact ⟨h1, by simpa [FluidDynamics.add_density], by simpa [FluidDynamics.add_density]⟩

/-- FluidDynamics::set_density establishes the buffer-size invariant. -/
theorem fluid_set_density_sized (fd : FluidDynamics) (l : List ℚ) :
    FluidSized l.length (fd.set_density l) := by
  refine ⟨rfl, ?_, ?_⟩ <;> simp [FluidDynamics.set_density]

/-- Simulation::step preserves the buffer-size invariant. -/
theorem sim_step_sized (n : ℕ) (sim : Simulation)
    (h : FluidSized n sim.fluid_dynamics) : FluidSized n sim.step.fluid_dynamics :=
  fluid_step_sized n _ _ (fluid_add_density_sized n _ _ h)

/-- The forward loop preserves the buffer-size invariant. -/
theorem sim_forwardAux_sized (n : ℕ) :
    ∀ (fuel : ℕ) (sim : Simulation) (st hrs : ℚ),
      FluidSized n sim.fluid_dynamics →
      FluidSized n (Simulation.forwardAux fuel sim st hrs).fluid_dynamics := by
  intro fuel
  induction fuel with
  | zero => intro sim st hrs h; exact h
  | succ k ih =>
      intro sim st hrs h
      rw [Simulation.forwardAux]
      split
      · exact ih _ _ _ (sim_step_sized n sim h)
      · exact h

/-- Every post-start operation preserves the buffer-size invariant. -/
theorem applySimOp_sized (n : ℕ) (sim : Simulation) (op : SimOp)
    (h : FluidSized n sim.fluid_dynamics) :
    FluidSized n (applySimOp sim op).fluid_dynamics := by
  cases op with
  | step => exact sim_step_sized n sim h
  | forward hrs => exact sim_forwardAux_sized n _ sim _ _ h
  | pause => exact h
  | resume => exact h
  | start_forward => exact h

/-- Sequences of post-start operations preserve the buffer-size invariant. -/
theorem applySimOps_sized (n : ℕ) :
    ∀ (ops : List SimOp) (sim : Simulation),
      FluidSized n sim.fluid_dynamics →
      FluidSized n (applySimOps sim ops).fluid_dynamics := by
  intro ops
  induction ops with
  | nil => intro sim h; exact h
  | cons op rest ih => intro sim h; exact ih _ (applySimOp_sized n sim op h)

/-- Under the buffer-size invariant the levels vector has the landscape
length. -/
theorem get_levels_length_of_sized (n : ℕ) (sim : Simulation)
    (h : FluidSized n sim.fluid_dynamics) : sim.get_levels.length = n := by
  obtain ⟨h1, h2, _⟩ := h
  simp [Simulation.get_levels, FluidDynamics.get_density, h1, h2]

/-- C8: after start with a landscape of length N, get_levels returns a vector
of length N, and every subsequent sequence of step, forward, pause, resume and
start_forward calls preserves this length. -/
theorem get_levels_length_invariant (sim : Simulation) (l : List ℚ) (hours : ℚ)
    (ops : List SimOp) :
    (applySimOps (sim.start l hours) ops).get_levels.length = l.length := by
  refine get_levels_length_of_sized _ _ (applySimOps_sized _ ops _ ?_)
  exact fluid_set_density_sized sim.fluid_dynamics l

/-- C2, failing input: the repository end-to-end test drives
Start with landscape 1, 2 and one hour to completion and asserts final levels
2.5, 2.5 — the value the sink-hierarchy engine produces — but the simulation
is wired to the diffusion solver: driven to completion it reaches time 1 with
levels different from 2.5, 2.5, while WaterFlow new 1, 2 rain 1 total_levels
is exactly 2.5, 2.5. -/
theorem simulation_not_wired_to_waterflow :
    ((Simulation.new.start [1, 2] 1).forward 1000).get_time = 1 ∧
    ¬ ((Simulation.new.start [1, 2] 1).forward 1000).is_running ∧
    ((Simulation.new.start [1, 2] 1).forward 1000).get_levels ≠
      ((WaterFlow.new [1, 2]).rain 1).total_levels ∧
    ((WaterFlow.new [1, 2]).rain 1).total_levels = [5/2, 5/2] := by
  decide

/-- C2, counterexample: already after a single step the levels of the live
simulation differ from the sink-hierarchy levels for the cumulative elapsed
time: on landscape 1, 4 with hours 1, after one step the elapsed time is 0.05
but get_levels is not WaterFlow new 1, 4 rain 0.05 total_levels. -/
theorem simulation_step_differs_from_rain :
    (Simulation.new.start [1, 4] 1).step.get_time = 1/20 ∧
    (Simulation.new.start [1, 4] 1).step.get_levels ≠
      ((WaterFlow.new [1, 4]).rain (1/20)).total_levels := by
  decide

/-! Correctness of the scanning loop: the produced area list is an
alternating sequence of plains and sinks covering the region, with each
plain holding the number of its sink neighbours. -/

/-- The plain scan advances to the end of the run of segments at the level. -/
theorem scanPlainIdx_spec (l : List SegmentLevel) (stop level : ℕ) :
    ∀ fuel i, i ≤ stop + 1 → stop + 1 - i ≤ fuel →
      i ≤ scanPlainIdx l stop level fuel i ∧
      scanPlainIdx l stop level fuel i ≤ stop + 1 ∧
      (∀ m, i ≤ m → m < scanPlainIdx l stop level fuel i → l.getD m 0 = level) ∧
      (scanPlainIdx l stop level fuel i = stop + 1 ∨
        l.getD (scanPlainIdx l stop level fuel i) 0 ≠ level) := by
  intro fuel
  induction fuel with
  | zero =>
      intro i hi hf
      have hi' : i = stop + 1 := by omega
      simp only [scanPlainIdx]
      exact ⟨le_refl _, by omega, fun m h1 h2 => by omega, Or.inl hi'⟩
  | succ n ih =>
      intro i hi hf
      rw [scanPlainIdx]
      split
      · next h =>
          obtain ⟨h1, h2⟩ := h
          obtain ⟨g1, g2, g3, g4⟩ := ih (i + 1) (by omega) (by omega)
          refine ⟨by omega, g2, ?_, g4⟩
          intro m hm1 hm2
          rcases Nat.eq_or_lt_of_le hm1 with heq | hlt
          · exact heq ▸ h2
          · exact g3 m hlt hm2
      · next h =>
          push_neg at h
          by_cases hle : i ≤ stop
          · exact ⟨le_refl _, by omega, fun m h1 h2 => by omega, Or.inr (h hle)⟩
          · exact ⟨le_refl _, by omega, fun m h1 h2 => by omega, Or.inl (by omega)⟩

/-- The sink scan advances to the end of the run of segments below the level,
and its running maximum bounds the segments of the run and stays below the
level. -/
theorem scanSinkIdx_spec (l : List SegmentLevel) (stop level : ℕ) :
    ∀ fuel i b0, i ≤ stop + 1 → stop + 1 - i ≤ fuel →
      i ≤ (scanSinkIdx l stop level fuel i b0).1 ∧
      (scanSinkIdx l stop level fuel i b0).1 ≤ stop + 1 ∧
      b0 ≤ (scanSinkIdx l stop level fuel i b0).2 ∧
      (∀ m, i ≤ m → m < (scanSinkIdx l stop level fuel i b0).1 →
        l.getD m 0 < level ∧ l.getD m 0 ≤ (scanSinkIdx l stop level fuel i b0).2) ∧
      (b0 < level → (scanSinkIdx l stop level fuel i b0).2 < level) ∧
      ((scanSinkIdx l stop level fuel i b0).1 = stop + 1 ∨
        ¬ l.getD (scanSinkIdx l stop level fuel i b0).1 0 < level) := by
  intro fuel
  induction fuel with
  | zero =>
      intro i b0 hi hf
      have hi' : i = stop + 1 := by omega
      simp only [scanSinkIdx]
      exact ⟨le_refl _, by omega, le_refl _, fun m h1 h2 => by omega,
        fun h => h, Or.inl hi'⟩
  | succ n ih =>
      intro i b0 hi hf
      rw [scanSinkIdx]
      split
      · next h =>
          obtain ⟨h1, h2⟩ := h
          obtain ⟨g1, g2, g3, g4, g5, g6⟩ := ih (i + 1) (max b0 (l.getD i 0)) (by omega) (by omega)
          refine ⟨by omega, g2, le_trans (le_max_left _ _) g3, ?_, ?_, g6⟩
          · intro m hm1 hm2
            rcases Nat.eq_or_lt_of_le hm1 with heq | hlt
            · exact heq ▸ ⟨h2, le_trans (le_max_right _ _) g3⟩
            · exact g4 m hlt hm2
          · intro hb0
            exact g5 (Nat.max_lt.mpr ⟨hb0, h2⟩)
      · next h =>
          push_neg at h
          by_cases hle : i ≤ stop
          · exact ⟨le_refl _, show i ≤ stop + 1 by omega, le_refl _,
              fun m h1 h2 => absurd (show m < i from h2) (by omega),
              fun hh => hh, Or.inr (not_lt.mpr (h hle))⟩
          · exact ⟨le_refl _, show i ≤ stop + 1 by omega, le_refl _,
              fun m h1 h2 => absurd (show m < i from h2) (by omega),
              fun hh => hh, Or.inl (show i = stop + 1 by omega)⟩

/-- Does the list of areas begin with a Sink area. -/
def headIsSinkA : List Area → Bool
  | .Sink _ _ _ :: _ => true
  | _ => false

/-- Does the list of areas begin with a Plain area. -/
def headIsPlainA : List Area → Bool
  | .Plain _ _ _ :: _ => true
  | _ => false

/-- Increment the sink count of a leading Plain area (the effect push_area has
on the previously pushed area when a Sink is pushed after a Plain). -/
def bumpPlainHead : List Area → List Area
  | .Plain p len k :: rest => .Plain p len (k + 1) :: rest
  | rev => rev

/-- Well-formed middle part of a scanned area list for the region from pos to
stop under the ceiling level: an alternating sequence of Sink and Plain areas
covering the region, where each Plain counts its Sink neighbours (ps says
whether a Sink area immediately precedes), each Sink area spans segments whose
levels are at most its bottom, and every bottom is below the ceiling. -/
inductive MidWF (l : List SegmentLevel) (level stop : ℕ) : Bool → ℕ → List Area → Prop where
  | nil : ∀ ps, MidWF l level stop ps (stop + 1) []
  | sink : ∀ ps pos e b rest, pos ≤ e → e ≤ stop → b < level →
      (∀ m, pos ≤ m → m ≤ e → l.getD m 0 ≤ b) →
      (rest = [] ∨ headIsPlainA rest = true) →
      MidWF l level stop true (e + 1) rest →
      MidWF l level stop ps pos (.Sink pos e b :: rest)
  | plain : ∀ ps pos len k rest, 1 ≤ len → pos + len ≤ stop + 1 →
      k = (if ps then 1 else 0) + (if headIsSinkA rest then 1 else 0) →
      (rest = [] ∨ headIsSinkA rest = true) →
      MidWF l level stop false (pos + len) rest →
      MidWF l level stop ps pos (.Plain pos len k :: rest)

/-- The scanning loop produces a well-formed middle part appended in front of
the accumulated list, bumping the sink count of a pending Plain when the first
new area is a Sink. -/
theorem scanAreasLoop_spec (l : List SegmentLevel) (level stop : ℕ) :
    ∀ fuel i rev, i ≤ stop + 1 → stop + 2 - i ≤ fuel → rev ≠ [] →
      (∀ m, i ≤ m → m ≤ stop → l.getD m 0 ≤ level) →
      (headIsPlainA rev = true → i = stop + 1 ∨ l.getD i 0 < level) →
      (headIsSinkA rev = true → i = stop + 1 ∨ l.getD i 0 = level) →
      ∃ tail, MidWF l level stop (headIsSinkA rev) i tail ∧
        scanAreasLoop l stop level fuel i rev =
          tail.reverse ++ (if headIsSinkA tail then bumpPlainHead rev else rev) ∧
        (headIsPlainA rev = true → tail = [] ∨ headIsSinkA tail = true) ∧
        (headIsSinkA rev = true → tail = [] ∨ headIsPlainA tail = true) := by
  intro fuel
  induction fuel with
  | zero => intro i rev hi hf; omega
  | succ n ih =>
      intro i rev hi hf hne hbound hplain hsink
      rw [scanAreasLoop]
      by_cases hle : i ≤ stop
      · rw [if_pos hle]
        by_cases heq : l.getD i 0 = level
        · -- plain branch
          rw [if_pos heq]
          simp only [scan_plain]
          have hnotplain : headIsPlainA rev = false := by
            cases hrevplain : headIsPlainA rev
            · rfl
            · rcases hplain hrevplain with h | h
              · omega
              · exact absurd heq (ne_of_lt h)
          have hspec1 : scanPlainIdx l stop level (stop + 1 - i) i =
              scanPlainIdx l stop level (stop - i) (i + 1) := by
            have heq2 : stop + 1 - i = (stop - i) + 1 := by omega
            rw [heq2, scanPlainIdx, if_pos ⟨hle, heq⟩]
          obtain ⟨g1, g2, g3, g4⟩ :=
            scanPlainIdx_spec l stop level (stop - i) (i + 1) (by omega) (by omega)
          set j := scanPlainIdx l stop level (stop - i) (i + 1) with hj
          have hlen : ¬ (j - i = 0) := by omega
          rw [hspec1, if_neg hlen]
          -- push_area conses the plain, whose initial count records a sink head
          have hpush : push_area rev (Area.Plain i (j - i) 0) =
              Area.Plain i (j - i) (if headIsSinkA rev then 1 else 0) :: rev := by
            cases rev with
            | nil => exact absurd rfl hne
            | cons a rest =>
                cases a with
                | Boundary => rfl
                | Sink s e b => rfl
                | Plain p pl k => simp [headIsPlainA] at hnotplain
          rw [hpush]
          have hnext : headIsPlainA (Area.Plain i (j - i)
              (if headIsSinkA rev then 1 else 0) :: rev) = true := rfl
          obtain ⟨tail', htail'wf, htail'out, htail'g1, htail'g2⟩ :=
            ih j (Area.Plain i (j - i) (if headIsSinkA rev then 1 else 0) :: rev)
              g2 (by omega) (by simp)
              (fun m hm1 hm2 => hbound m (by omega) hm2)
              (fun _ => by
                rcases g4 with h | h
                · exact Or.inl h
                · by_cases hj2 : j = stop + 1
                  · exact Or.inl hj2
                  · exact Or.inr (lt_of_le_of_ne (hbound j (by omega) (by omega)) h))
              (fun hcon => by simp [headIsSinkA] at hcon)
          have htail'sink : tail' = [] ∨ headIsSinkA tail' = true := htail'g1 hnext
          refine ⟨Area.Plain i (j - i)
              ((if headIsSinkA rev then 1 else 0) +
               (if headIsSinkA tail' then 1 else 0)) :: tail', ?_, ?_, ?_, ?_⟩
          · refine MidWF.plain _ _ _ _ _ (by omega) (by omega) rfl htail'sink ?_
            have heq3 : i + (j - i) = j := by omega
            rw [heq3]
            exact htail'wf
          · rw [htail'out]
            cases htsink : headIsSinkA tail' <;>
              simp [htsink, bumpPlainHead, headIsSinkA, List.append_assoc]
          · intro h
            rw [hnotplain] at h
            exact absurd h (by simp)
          · intro h
            exact Or.inr rfl
        · -- sink branch
          rw [if_neg heq]
          simp only [scan_sink]
          have hlt : l.getD i 0 < level :=
            lt_of_le_of_ne (hbound i (le_refl i) hle) heq
          have hnotsink : headIsSinkA rev = false := by
            cases hrevsink : headIsSinkA rev
            · rfl
            · rcases hsink hrevsink with h | h
              · omega
              · exact absurd h heq
          have hspec1 : scanSinkIdx l stop level (stop + 1 - i) i 0 =
              scanSinkIdx l stop level (stop - i) (i + 1) (max 0 (l.getD i 0)) := by
            have heq2 : stop + 1 - i = (stop - i) + 1 := by omega
            rw [heq2, scanSinkIdx, if_pos ⟨hle, hlt⟩]
          obtain ⟨g1, g2, g3, g4, g5, g6⟩ :=
            scanSinkIdx_spec l stop level (stop - i) (i + 1) (max 0 (l.getD i 0))
              (by omega) (by omega)
          rw [hspec1]
          set r := scanSinkIdx l stop level (stop - i) (i + 1) (max 0 (l.getD i 0)) with hr
          have hlevpos : 0 < level := lt_of_le_of_lt (Nat.zero_le _) hlt
          have hb : r.2 < level := g5 (by simpa using hlt)
          have hji : i + 1 ≤ r.1 := g1
          have hjs : r.1 ≤ stop + 1 := g2
          have hne2 : ¬ (i = r.1) := by omega
          rw [if_neg hne2]
          have hpush : push_area rev (Area.Sink i (r.1 - 1) r.2) =
              Area.Sink i (r.1 - 1) r.2 :: bumpPlainHead rev := by
            cases rev with
            | nil => exact absurd rfl hne
            | cons a rest =>
                cases a with
                | Boundary => rfl
                | Sink s e b => simp [headIsSinkA] at hnotsink
                | Plain p pl k => rfl
          rw [hpush]
          have hnext : headIsSinkA (Area.Sink i (r.1 - 1) r.2 :: bumpPlainHead rev) = true := rfl
          obtain ⟨tail', htail'wf, htail'out, htail'g1, htail'g2⟩ :=
            ih r.1 (Area.Sink i (r.1 - 1) r.2 :: bumpPlainHead rev) hjs (by omega) (by simp)
              (fun m hm1 hm2 => hbound m (by omega) hm2)
              (fun hcon => by simp [headIsPlainA] at hcon)
              (fun _ => by
                rcases g6 with h | h
                · exact Or.inl h
                · by_cases hj2 : r.1 = stop + 1
                  · exact Or.inl hj2
                  · exact Or.inr (le_antisymm (hbound r.1 (Nat.le_of_succ_le hji) (by omega)) (not_lt.mp h)))
          have htail'plain : tail' = [] ∨ headIsPlainA tail' = true := htail'g2 hnext
          have htail'notsink : headIsSinkA tail' = false := by
            rcases htail'plain with h | h
            · rw [h]; rfl
            · cases tail' with
              | nil => rfl
              | cons a rest =>
                  cases a with
                  | Boundary => simp [headIsPlainA] at h
                  | Sink s e b => simp [headIsPlainA] at h
                  | Plain p pl k => rfl
          refine ⟨Area.Sink i (r.1 - 1) r.2 :: tail', ?_, ?_, ?_, ?_⟩
          · refine MidWF.sink _ _ _ _ _ (by omega) (by omega) hb ?_ htail'plain ?_
            · intro m hm1 hm2
              rcases Nat.eq_or_lt_of_le hm1 with hmeq | hmlt
              · rw [← hmeq]
                exact le_trans (le_max_right 0 (l.getD i 0)) g3
              · exact (g4 m hmlt (by omega)).2
            · have heq3 : r.1 - 1 + 1 = r.1 := by omega
              rw [heq3]
              exact htail'wf
          · rw [htail'out, htail'notsink]
            have hshape : headIsSinkA (Area.Sink i (r.1 - 1) r.2 :: tail') = true := rfl
            rw [hshape, if_pos rfl]
            simp [List.append_assoc]
          · intro h
            exact Or.inr rfl
          · intro h
            rw [hnotsink] at h
            exact absurd h (by simp)
      · -- the loop is finished
        rw [if_neg hle]
        have hi2 : i = stop + 1 := by omega
        refine ⟨[], hi2 ▸ MidWF.nil _, ?_, fun _ => Or.inl rfl, fun _ => Or.inl rfl⟩
        simp [headIsSinkA]


@[simp] theorem hasSinkA_nil : hasSinkA [] = false := rfl

@[simp] theorem hasSinkA_cons_sink (s e b : ℕ) (r : List Area) :
    hasSinkA (.Sink s e b :: r) = true := rfl

@[simp] theorem hasSinkA_cons_plain (p n k : ℕ) (r : List Area) :
    hasSinkA (.Plain p n k :: r) = hasSinkA r := rfl

@[simp] theorem hasSinkA_cons_boundary (r : List Area) :
    hasSinkA (.Boundary :: r) = hasSinkA r := rfl

/-- Inversion: an empty middle part starts at the end of the region. -/
theorem midwf_nil_inv (l : List SegmentLevel) (level stop : ℕ) (ps : Bool) (pos : ℕ)
    (h : MidWF l level stop ps pos []) : pos = stop + 1 := by
  cases h; rfl

/-- Inversion: a Boundary area never occurs inside the middle part. -/
theorem midwf_cons_boundary_inv (l : List SegmentLevel) (level stop : ℕ) (ps : Bool)
    (pos : ℕ) (rest : List Area) (h : MidWF l level stop ps pos (.Boundary :: rest)) :
    False := by
  cases h

/-- Inversion of the sink constructor of MidWF. -/
theorem midwf_cons_sink_inv (l : List SegmentLevel) (level stop : ℕ) (ps : Bool)
    (pos s e b : ℕ) (rest : List Area)
    (h : MidWF l level stop ps pos (.Sink s e b :: rest)) :
    s = pos ∧ pos ≤ e ∧ e ≤ stop ∧ b < level ∧
      (∀ m, pos ≤ m → m ≤ e → l.getD m 0 ≤ b) ∧
      (rest = [] ∨ headIsPlainA rest = true) ∧
      MidWF l level stop true (e + 1) rest := by
  cases h with
  | sink _ _ _ _ _ h1 h2 h3 h4 h5 h6 => exact ⟨rfl, h1, h2, h3, h4, h5, h6⟩

/-- Inversion of the plain constructor of MidWF. -/
theorem midwf_cons_plain_inv (l : List SegmentLevel) (level stop : ℕ) (ps : Bool)
    (pos p len k : ℕ) (rest : List Area)
    (h : MidWF l level stop ps pos (.Plain p len k :: rest)) :
    p = pos ∧ 1 ≤ len ∧ pos + len ≤ stop + 1 ∧
      k = (if ps then 1 else 0) + (if headIsSinkA rest then 1 else 0) ∧
      (rest = [] ∨ headIsSinkA rest = true) ∧
      MidWF l level stop false (pos + len) rest := by
  cases h with
  | plain _ _ _ _ _ h1 h2 h3 h4 h5 => exact ⟨rfl, h1, h2, h3, h4, h5⟩

/-- Structural bounds of a well-formed middle part: it fits between its start
position and the end of the region. -/
theorem midwf_len (l : List SegmentLevel) (level stop : ℕ) :
    ∀ mid ps pos, MidWF l level stop ps pos mid →
      pos ≤ stop + 1 ∧ mid.length ≤ stop + 1 - pos := by
  intro mid
  induction mid with
  | nil =>
      intro ps pos h
      have := midwf_nil_inv l level stop ps pos h
      simp only [List.length_nil]
      omega
  | cons a rest ih =>
      intro ps pos h
      cases a with
      | Boundary => exact absurd h (fun h => midwf_cons_boundary_inv _ _ _ _ _ _ h)
      | Sink s e b =>
          obtain ⟨-, h1, h2, -, -, -, h6⟩ := midwf_cons_sink_inv _ _ _ _ _ _ _ _ _ h
          have := ih _ _ h6
          simp only [List.length_cons]
          omega
      | Plain p len k =>
          obtain ⟨-, h1, h2, -, -, h5⟩ := midwf_cons_plain_inv _ _ _ _ _ _ _ _ _ h
          have := ih _ _ h5
          simp only [List.length_cons]
          omega

/-- Evaluation of the neighbour sum over a well-formed middle part containing
at least one sink: the sum telescopes to the width of the region, plus the
left-neighbour width for a leading sink, minus the share of a leading plain
that was already counted by the sink preceding the part. -/
theorem midwf_nbrSum (l : List SegmentLevel) (level stop : ℕ) :
    ∀ mid ps pos, MidWF l level stop ps pos mid → hasSinkA mid = true →
      ∀ pw, nbrSum pw mid =
        (if headIsSinkA mid then pw else 0) + ((stop : ℚ) + 1 - pos) -
          (if ps then leadPlainShare mid else 0) := by
  intro mid
  induction mid with
  | nil => intro ps pos _ hcon; simp at hcon
  | cons a rest ih =>
      intro ps pos h hsink pw
      cases a with
      | Boundary => exact absurd h (fun h => midwf_cons_boundary_inv _ _ _ _ _ _ h)
      | Sink s e b =>
          obtain ⟨hs, h1, h2, -, -, h5, h6⟩ := midwf_cons_sink_inv _ _ _ _ _ _ _ _ _ h
          subst hs
          have hw : (Area.Sink s e b).width = (e : ℚ) + 1 - s := by
            simp only [Area.width]
            push_cast [Nat.cast_sub h1]
            ring
          rcases h5 with hnil | hplainhead
          · subst hnil
            have he : e + 1 = stop + 1 := midwf_nil_inv _ _ _ _ _ h6
            have hes : (e : ℚ) = (stop : ℚ) := by
              have : e = stop := by omega
              exact_mod_cast this
            simp only [nbrSum, headWidthA, headIsSinkA, leadPlainShare, if_true, hw, hes]
            cases ps <;> simp <;> ring
          · cases rest with
            | nil => simp [headIsPlainA] at hplainhead
            | cons a' rest' =>
                cases a' with
                | Boundary => simp [headIsPlainA] at hplainhead
                | Sink s2 e2 b2 => simp [headIsPlainA] at hplainhead
                | Plain p' len' k' =>
                    by_cases hsr : hasSinkA (Area.Plain p' len' k' :: rest') = true
                    · have hrec := ih _ _ h6 hsr ((Area.Sink s e b).width)
                      have hstep : nbrSum pw (.Sink s e b :: .Plain p' len' k' :: rest') =
                          (Area.Sink s e b).width + pw +
                            headWidthA (.Plain p' len' k' :: rest') +
                            nbrSum (Area.Sink s e b).width
                              (.Plain p' len' k' :: rest') := rfl
                      rw [hstep, hrec]
                      simp only [headIsSinkA, headWidthA, leadPlainShare, Area.width,
                        if_false, if_true, hw]
                      cases ps <;> simp <;> push_cast [Nat.cast_sub h1] <;> ring
                    · -- no sink after the plain: the plain is final and k' = 1
                      obtain ⟨hp, hl1, hl2, hk, hrest', h5'⟩ :=
                        midwf_cons_plain_inv _ _ _ _ _ _ _ _ _ h6
                      have hrest'nil : rest' = [] := by
                        rcases hrest' with h' | h'
                        · exact h'
                        · exfalso
                          cases rest' with
                          | nil => simp [headIsSinkA] at h'
                          | cons a'' r'' =>
                              cases a'' with
                              | Boundary => simp [headIsSinkA] at h'
                              | Plain _ _ _ => simp [headIsSinkA] at h'
                              | Sink _ _ _ => simp at hsr
                      subst hrest'nil
                      have hk1 : k' = 1 := by
                        simp only [headIsSinkA] at hk
                        simpa using hk
                      subst hk1
                      have hend : (e + 1) + len' = stop + 1 :=
                        midwf_nil_inv _ _ _ _ _ h5'
                      simp only [nbrSum, headWidthA, headIsSinkA, leadPlainShare,
                        Area.width, if_true, hw]
                      have hlen : (len' : ℚ) = (stop : ℚ) - e := by
                        have : len' = stop - e := by omega
                        rw [this]
                        push_cast [Nat.cast_sub (by omega : e ≤ stop)]
                        ring
                      rw [hlen]
                      cases ps <;> simp <;> push_cast [Nat.cast_sub h1] <;> ring
      | Plain p len k =>
          obtain ⟨hp, hl1, hl2, hk, h4, h5⟩ := midwf_cons_plain_inv _ _ _ _ _ _ _ _ _ h
          subst hp
          have hsr : hasSinkA rest = true := by simpa using hsink
          have hrestne : rest ≠ [] := by
            intro hcon; rw [hcon] at hsr; simp at hsr
          have hsinkhead : headIsSinkA rest = true := by
            rcases h4 with h' | h'
            · exact absurd h' hrestne
            · exact h'
          have hrec := ih _ _ h5 hsr ((Area.Plain p len k).width)
          rw [hsinkhead, if_pos rfl] at hrec
          have hstep : nbrSum pw (.Plain p len k :: rest) =
              nbrSum ((Area.Plain p len k).width) rest := rfl
          rw [hstep, hrec]
          simp only [headIsSinkA, leadPlainShare, Area.width, if_false]
          rw [hsinkhead, if_pos rfl] at hk
          have hcast : ((p + len : ℕ) : ℚ) = (p : ℚ) + len := by push_cast; ring
          rw [hcast]
          cases hps : ps
          · rw [hps] at hk
            simp at hk
            subst hk
            simp
            ring
          · rw [hps] at hk
            simp at hk
            subst hk
            simp
            ring
theorem foldl_add_eq (xs : List ℚ) : ∀ a : ℚ, xs.foldl (· + ·) a = a + xs.foldl (· + ·) 0 := by
  induction xs with
  | nil => intro a; simp
  | cons y ys ih => intro a; simp only [List.foldl_cons]; rw [ih (a + y), ih (0 + y)]; ring

theorem sumQ_cons (x : ℚ) (xs : List ℚ) : sumQ (x :: xs) = x + sumQ xs := by
  simp only [sumQ, List.foldl_cons]
  rw [foldl_add_eq]
  ring

theorem sibAllL_iff (cs : List Sink) : sibAllL cs = true ↔ ∀ c ∈ cs, c.sibAll = true := by
  induction cs with
  | nil => simp [sibAllL]
  | cons c cs ih => simp [sibAllL, ih]

theorem sibAll_new (w : ℚ) (s e t b : ℕ) (cs : List Sink) :
    (Sink.new w s e t b cs).sibAll =
      ((cs.isEmpty || decide (sumQ (cs.map Sink.weight) = 1)) && sibAllL cs) := rfl

theorem weight_new (w : ℚ) (s e t b : ℕ) (cs : List Sink) :
    (Sink.new w s e t b cs).weight = w := rfl

theorem buildLoopF_succ (f : ℕ) (l : List SegmentLevel) (areas : List Area)
    (tw : ℚ) (level : SegmentLevel) (index rem : ℕ) :
    buildLoopF (f+1) l areas tw level index (rem+1) =
      match areas.getD index .Boundary with
      | .Sink s e b =>
          (match build_sinks_hierarchyF f l s e b with
           | none => none
           | some children =>
               match buildLoopF f l areas tw level (index + 1) rem with
               | none => none
               | some (sinks, total_weight) =>
                   some (Sink.new (calculate_sink_weight areas index tw) s e level b children :: sinks,
                     calculate_sink_weight areas index tw + total_weight))
      | _ => buildLoopF f l areas tw level (index + 1) rem := rfl

theorem build_sinks_hierarchyF_succ (f : ℕ) (l : List SegmentLevel)
    (start stop : ℕ) (level : SegmentLevel) :
    build_sinks_hierarchyF (f+1) l start stop level =
      match buildLoopF f l (scan_areas l start stop level)
          ((stop - start + 1 : ℕ) : ℚ) level 1 ((scan_areas l start stop level).length - 2) with
      | none => none
      | some (sinks, total_weight) =>
          some (match sinks with
                | [] => []
                | s0 :: srest =>
                    if total_weight < 1 then
                      s0.setWeight (s0.weight + (1 - total_weight)) :: srest
                    else s0 :: srest) := rfl
/-- Soundness of the hierarchy-building loop along a well-formed middle part:
with enough fuel it succeeds, the total it returns is the neighbour sum of the
part divided by the total width, the produced weights sum to that total, the
result is empty exactly when the part has no sink, and every produced subtree
is weight-normalised. -/
theorem buildLoop_sound (l : List SegmentLevel) (level stop : ℕ) (tw : ℚ)
    (areas : List Area)
    (HF : ∀ f' s' e' b', b' < level →
        (∀ m, s' ≤ m → m ≤ e' → l.getD m 0 ≤ b') → s' ≤ e' → e' < l.length →
        (b' + 1) * (l.length + 3) ≤ f' →
        ∃ cs, build_sinks_hierarchyF f' l s' e' b' = some cs ∧
          (cs = [] ∨ sumQ (cs.map Sink.weight) = 1) ∧
          ∀ c ∈ cs, Sink.sibAll c = true) :
    ∀ mid ps pos, MidWF l level stop ps pos mid →
    ∀ index fuel pw,
      1 ≤ index →
      (∀ j, j < mid.length → areas.getD (index + j) .Boundary = mid.getD j .Boundary) →
      areas.getD (index + mid.length) .Boundary = .Boundary →
      (areas.getD (index - 1) .Boundary).width = pw →
      stop < l.length →
      mid.length + level * (l.length + 3) + 1 ≤ fuel →
      ∃ sinks total,
        buildLoopF fuel l areas tw level index mid.length = some (sinks, total) ∧
        total = nbrSum pw mid / tw ∧
        sumQ (sinks.map Sink.weight) = total ∧
        (sinks = [] ↔ hasSinkA mid = false) ∧
        ∀ c ∈ sinks, Sink.sibAll c = true := by
  intro mid
  induction mid with
  | nil =>
      intro ps pos hwf index fuel pw hidx hpos hnext hprev hstop hfuel
      obtain ⟨f, rfl⟩ : ∃ f, fuel = f + 1 := ⟨fuel - 1, by omega⟩
      refine ⟨[], 0, rfl, ?_, rfl, by simp, by simp⟩
      simp [nbrSum]
  | cons a rest ih =>
      intro ps pos hwf index fuel pw hidx hpos hnext hprev hstop hfuel
      obtain ⟨f, rfl⟩ : ∃ f, fuel = f + 1 := ⟨fuel - 1, by omega⟩
      have hgetD : areas.getD index .Boundary = a := by
        have := hpos 0 (by simp)
        simpa using this
      have hposrest : ∀ j, j < rest.length →
          areas.getD (index + 1 + j) .Boundary = rest.getD j .Boundary := by
        intro j hj
        have heq : index + 1 + j = index + (j + 1) := by omega
        rw [heq]
        have := hpos (j + 1) (by simp; omega)
        simpa using this
      have hnextrest : areas.getD (index + 1 + rest.length) .Boundary = .Boundary := by
        have heq : index + 1 + rest.length = index + (a :: rest).length := by
          simp; omega
        rw [heq]
        exact hnext
      have hprevrest : (areas.getD (index + 1 - 1) .Boundary).width = a.width := by
        have heq : index + 1 - 1 = index := by omega
        rw [heq, hgetD]
      cases a with
      | Boundary => exact absurd hwf (fun h => midwf_cons_boundary_inv _ _ _ _ _ _ h)
      | Plain p len k =>
          obtain ⟨hp, hl1, hl2, hk, h4, h5⟩ := midwf_cons_plain_inv _ _ _ _ _ _ _ _ _ hwf
          have hfuel' : rest.length + 1 + level * (l.length + 3) + 1 ≤ f + 1 := by
            have := hfuel; simp only [List.length_cons] at this; omega
          obtain ⟨sinks, total, hloop, htot, hsum, hemp, hall⟩ :=
            ih _ _ h5 (index + 1) f ((Area.Plain p len k).width)
              (by omega) hposrest hnextrest hprevrest hstop (by omega)
          refine ⟨sinks, total, ?_, ?_, hsum, ?_, hall⟩
          · simp only [List.length_cons, buildLoopF_succ, hgetD]
            exact hloop
          · rw [htot]
            rfl
          · simpa using hemp
      | Sink s e b =>
          obtain ⟨hs, h1, h2, h3, h4, h5, h6⟩ := midwf_cons_sink_inv _ _ _ _ _ _ _ _ _ hwf
          subst hs
          have hfuel' : rest.length + 1 + level * (l.length + 3) + 1 ≤ f + 1 := by
            have := hfuel; simp only [List.length_cons] at this; omega
          have hmul : (b + 1) * (l.length + 3) ≤ level * (l.length + 3) :=
            Nat.mul_le_mul_right _ (by omega)
          have hlev : level * (l.length + 3) ≤ f := by omega
          have hchild : (b + 1) * (l.length + 3) ≤ f := le_trans hmul hlev
          obtain ⟨cs, hcs, hcsok, hcsall⟩ :=
            HF f s e b h3 h4 h1 (by omega) hchild
          obtain ⟨sinks, total, hloop, htot, hsum, hemp, hall⟩ :=
            ih _ _ h6 (index + 1) f ((Area.Sink s e b).width)
              (by omega) hposrest hnextrest hprevrest hstop (by omega)
          have hright : (areas.getD (index + 1) .Boundary).width = headWidthA rest := by
            cases rest with
            | nil =>
                have h' : areas.getD (index + 1) .Boundary = .Boundary := by
                  simpa using hnext
                rw [h']
                rfl
            | cons r rrest =>
                have h' := hpos 1 (by simp)
                simp only [List.getD_cons_succ] at h'
                rw [h']
                cases r <;> rfl
          have hw : calculate_sink_weight areas index tw =
              ((Area.Sink s e b).width + pw + headWidthA rest) / tw := by
            simp only [calculate_sink_weight, hgetD, hprev, hright]
          refine ⟨Sink.new (calculate_sink_weight areas index tw) s e level b cs :: sinks,
            calculate_sink_weight areas index tw + total, ?_, ?_, ?_, ?_, ?_⟩
          · simp only [List.length_cons, buildLoopF_succ, hgetD, hcs, hloop]
          · rw [hw, htot]
            have hnb : nbrSum pw (Area.Sink s e b :: rest) =
                (Area.Sink s e b).width + pw + headWidthA rest +
                  nbrSum (Area.Sink s e b).width rest := rfl
            rw [hnb, div_add_div_same]
          · simp only [List.map_cons, sumQ_cons, weight_new, hsum]
          · constructor
            · intro hcon; exact absurd hcon (by simp)
            · intro hcon; simp at hcon
          · intro c hc
            rcases List.mem_cons.mp hc with hhd | htl
            · subst hhd
              rw [sibAll_new]
              rcases hcsok with hnil | hone
              · subst hnil
                simp [sibAllL]
              · rw [Bool.and_eq_true]
                exact ⟨by simp [hone], (sibAllL_iff cs).mpr hcsall⟩
            · exact hall c htl
theorem foldl_max_init_le (xs : List SegmentLevel) : ∀ a : ℕ, a ≤ xs.foldl max a := by
  induction xs with
  | nil => intro a; simp
  | cons y ys ih => intro a; exact le_trans (le_max_left a y) (ih _)

theorem getD_le_foldl_max (l : List SegmentLevel) : ∀ m a, l.getD m 0 ≤ l.foldl max a := by
  induction l with
  | nil =>
      intro m a
      simp [List.getD]
  | cons x xs ih =>
      intro m a
      cases m with
      | zero =>
          simp only [List.foldl_cons, List.getD_cons_zero]
          exact le_trans (le_max_right a x) (foldl_max_init_le xs _)
      | succ m' =>
          simp only [List.foldl_cons, List.getD_cons_succ]
          exact ih m' (max a x)

/-- With the quantitative fuel budget, build_sinks_hierarchy succeeds on every
region whose segments are bounded by the ceiling level, and the children lists
it produces are weight-normalised at every depth. -/
theorem buildF_sound (l : List SegmentLevel) : ∀ level fuel start stop : ℕ,
    (∀ m, start ≤ m → m ≤ stop → l.getD m 0 ≤ level) →
    start ≤ stop → stop < l.length →
    (level + 1) * (l.length + 3) ≤ fuel →
    ∃ cs, build_sinks_hierarchyF fuel l start stop level = some cs ∧
      (cs = [] ∨ sumQ (cs.map Sink.weight) = 1) ∧
      ∀ c ∈ cs, Sink.sibAll c = true := by
  intro level
  induction level using Nat.strong_induction_on with
  | _ level IH =>
      intro fuel start stop hbound hss hstop hfuel
      have hfpos : 0 < (level + 1) * (l.length + 3) := Nat.mul_pos (by omega) (by omega)
      obtain ⟨f, rfl⟩ : ∃ f, fuel = f + 1 := ⟨fuel - 1, by omega⟩
      -- decompose the scanned area list
      obtain ⟨tail, hwf, hout, -, -⟩ :=
        scanAreasLoop_spec l level stop (stop + 2 - start) start [Area.Boundary]
          (show start ≤ stop + 1 by omega)
          (show stop + 2 - start ≤ stop + 2 - start from le_refl _)
          (by simp)
          (fun m h1 h2 => hbound m h1 h2)
          (by intro hcon; simp [headIsPlainA] at hcon)
          (by intro hcon; simp [headIsSinkA] at hcon)
      have hbump : (if headIsSinkA tail then bumpPlainHead [Area.Boundary]
          else [Area.Boundary]) = [Area.Boundary] := by
        cases headIsSinkA tail <;> rfl
      rw [hbump] at hout
      have hareas : scan_areas l start stop level = .Boundary :: tail ++ [.Boundary] := by
        simp [scan_areas, hout, List.reverse_append]
      have hlen : (scan_areas l start stop level).length - 2 = tail.length := by
        rw [hareas]; simp
      have hwffalse : MidWF l level stop (headIsSinkA [Area.Boundary]) start tail := hwf
      have hwffalse' : MidWF l level stop false start tail := by
        simpa [headIsSinkA] using hwffalse
      have hmidlen := midwf_len l level stop tail false start hwffalse'
      -- positional facts about the concatenated list
      have hpos : ∀ j, j < tail.length →
          (Area.Boundary :: tail ++ [Area.Boundary]).getD (1 + j) .Boundary =
            tail.getD j .Boundary := by
        intro j hj
        rw [show (1 : ℕ) + j = j + 1 by omega]
        show (tail ++ [Area.Boundary]).getD j Area.Boundary = tail.getD j Area.Boundary
        exact List.getD_append _ _ _ _ hj
      have hnext : (Area.Boundary :: tail ++ [Area.Boundary]).getD (1 + tail.length) .Boundary =
          .Boundary := by
        rw [show (1 : ℕ) + tail.length = tail.length + 1 by omega]
        show (tail ++ [Area.Boundary]).getD tail.length Area.Boundary = Area.Boundary
        rw [List.getD_append_right _ _ _ _ (le_refl _)]
        simp
      have hprev : ((Area.Boundary :: tail ++ [Area.Boundary]).getD (1 - 1) .Boundary).width =
          0 := by rfl
      have hfuelloop : tail.length + level * (l.length + 3) + 1 ≤ f := by
        have h2 : tail.length ≤ stop + 1 - start := hmidlen.2
        have h3 : (level + 1) * (l.length + 3) = level * (l.length + 3) + (l.length + 3) := by ring
        omega
      obtain ⟨sinks, total, hloop, htot, hsum, hemp, hall⟩ :=
        buildLoop_sound l level stop ((stop - start + 1 : ℕ) : ℚ)
          (.Boundary :: tail ++ [.Boundary])
          (fun f' s' e' b' hb' hcell hse hel hf' =>
            IH b' hb' f' s' e' hcell hse hel hf')
          tail false start hwffalse' 1 f 0 (le_refl _) hpos hnext hprev hstop
          (by omega)
      rw [build_sinks_hierarchyF_succ, hlen, hareas, hloop]
      by_cases hsink : hasSinkA tail = true
      · -- there is at least one sink: the total is exactly one
        have hne : sinks ≠ [] := by
          intro hcon
          rw [hemp.mp hcon] at hsink
          exact absurd hsink (by simp)
        obtain ⟨s0, srest, rfl⟩ : ∃ s0 srest, sinks = s0 :: srest := by
          cases sinks with
          | nil => exact absurd rfl hne
          | cons s0 srest => exact ⟨s0, srest, rfl⟩
        have hTW : ((stop - start + 1 : ℕ) : ℚ) = (stop : ℚ) + 1 - start := by
          push_cast [Nat.cast_sub hss]
          ring
        have hTWne : ((stop : ℚ) + 1 - start) ≠ 0 := by
          have : (start : ℚ) ≤ stop := by exact_mod_cast hss
          intro hcon
          nlinarith
        have htot1 : total = 1 := by
          rw [htot, midwf_nbrSum l level stop tail false start hwffalse' hsink 0, hTW]
          simp only [ite_self, Bool.false_eq_true, if_false, sub_zero, zero_add]
          exact div_self hTWne
        rw [htot1]
        refine ⟨s0 :: srest, ?_, Or.inr ?_, ?_⟩
        · have : ¬ ((1 : ℚ) < 1) := lt_irrefl 1
          simp only [this, if_false]
        · rw [← htot1, hsum]
        · exact hall
      · -- no sink: the loop produced the empty list
        have hnil : sinks = [] := hemp.mpr (by simpa using hsink)
        subst hnil
        exact ⟨[], rfl, Or.inl rfl, by simp⟩

/-- C1, counterexample: on the landscape 0, 10, 9, 10, 0 with three hours of
rain the total flooded water exceeds the rainfall volume 15 by more than the
seven percent tolerance: the middle sink overflows by 5, both neighbours have
room at least 5, and the square-root normalisation of spilled_amount then
spills 5 times the square root of two, about 7.07, duplicating water. -/
theorem rain_mass_conservation_fails :
    ¬ (|sumQ ((WaterFlow.new [0, 10, 9, 10, 0]).rain 3).water - 5 * 3| ≤
        7/100 * (5 * 3)) := by
  have h : 7/100 * (5 * 3 : ℚ) <
      sumQ ((WaterFlow.new [0, 10, 9, 10, 0]).rain 3).water - 5 * 3 := by decide
  intro hle
  have h2 := le_abs_self (sumQ ((WaterFlow.new [0, 10, 9, 10, 0]).rain 3).water - 5 * 3)
  have h3 := le_trans h2 hle
  linarith

/-- C3, counterexample: after the same overspill the parent absorbs the
negative remainder, so the root sink of the landscape 0, 10, 9, 10, 0 holds
strictly negative water after rain 3, refuting the lower bound 0 ≤ water. -/
theorem sink_water_negative :
    (((WaterFlow.new [0, 10, 9, 10, 0]).rain 3).root_sink.map Sink.water).getD 0 < 0 := by
  decide

/-- C4, counterexample: on the landscape 0, 3, 2, 3, 0 a prior rain 1 call
leaves residual water state in the hierarchy (flooding only resets positive
water, and the square-root overspill of spilled_amount can leave a negative
remainder), and a later rain 2 call on the same WaterFlow then floods a water
vector different from the one produced by rain 2 on a freshly constructed
WaterFlow: the result of rain does depend on prior rain calls. -/
theorem rain_not_idempotent :
    (((WaterFlow.new [0, 3, 2, 3, 0]).rain 1).rain 2).water ≠
      ((WaterFlow.new [0, 3, 2, 3, 0]).rain 2).water := by
  decide


/-- C5: in the sink hierarchy built by WaterFlow::new, every nonempty sibling
list (the children of any node) has weights summing exactly to one. -/
theorem sibling_weights_normalised (l : List SegmentLevel) :
    (WaterFlow.new l).root_sink.all Sink.sibAll = true := by
  cases l with
  | nil => rfl
  | cons x xs =>
      have hlen1 : 1 ≤ (x :: xs).length := by simp
      have hmul : ((x :: xs).foldl max 0 + 1) * ((x :: xs).length + 3) ≤
          ((x :: xs).foldl max 0 + 2) * ((x :: xs).length + 3) :=
        Nat.mul_le_mul_right _ (by omega)
      obtain ⟨cs, hcs, hok, hall⟩ :=
        buildF_sound (x :: xs) ((x :: xs).foldl max 0) (buildFuel (x :: xs)) 0
          ((x :: xs).length - 1)
          (fun m _ _ => getD_le_foldl_max (x :: xs) m 0)
          (by omega) (by simp)
          (by
            simp only [buildFuel]
            exact le_trans hmul ((fun a : ℕ => by omega : ∀ a : ℕ, a ≤ a * 2 + 8) _))
      have hnew : (WaterFlow.new (x :: xs)).root_sink =
          some (Sink.new 1 0 ((x :: xs).length - 1) u32MAX ((x :: xs).foldl max 0)
            ((build_sinks_hierarchyF (buildFuel (x :: xs)) (x :: xs) 0
              ((x :: xs).length - 1) ((x :: xs).foldl max 0)).getD [])) := rfl
      rw [hnew, hcs]
      simp only [Option.all_some, Option.getD_some, sibAll_new, Bool.and_eq_true]
      refine ⟨?_, (sibAllL_iff cs).mpr hall⟩
      rcases hok with hnil | hone
      · subst hnil; simp
      · simp [hone]

/-- C10: the hierarchy construction of WaterFlow::new is total: the recursion
of build_sinks_hierarchy never exhausts the supplied fuel budget, because each
nested Sink area has a strictly smaller ceiling level and covers a subrange of
its parent's segment range. -/
theorem build_hierarchy_total (l : List SegmentLevel) :
    (build_sinks_hierarchyF (buildFuel l) l 0 (l.length - 1) (l.foldl max 0)).isSome = true := by
  cases l with
  | nil => decide
  | cons x xs =>
      have hmul : ((x :: xs).foldl max 0 + 1) * ((x :: xs).length + 3) ≤
          ((x :: xs).foldl max 0 + 2) * ((x :: xs).length + 3) :=
        Nat.mul_le_mul_right _ (by omega)
      obtain ⟨cs, hcs, -, -⟩ :=
        buildF_sound (x :: xs) ((x :: xs).foldl max 0) (buildFuel (x :: xs)) 0
          ((x :: xs).length - 1)
          (fun m _ _ => getD_le_foldl_max (x :: xs) m 0)
          (by omega) (by simp)
          (by
            simp only [buildFuel]
            exact le_trans hmul ((fun a : ℕ => by omega : ∀ a : ℕ, a ≤ a * 2 + 8) _))
      rw [hcs]
      rfl
end WaterLevels
